/-
Verification of the repairsim process-composition engine against its
natural-language specification.

The development shallowly embeds the Python sources:
  * `randomProcess.py` — the `RandomProcess` base class and the composite
    combinators `ParallelProcess`, `SequentialProcess`, `BranchingProcess`;
  * `randomFailure.py` — the leaf distribution classes and the two-stage
    failure/recovery availability statistic;
  * `collector.py` — the `Collector` statistics accumulator.

Simulated times and samples are rationals (ℚ) except where the source
computes with transcendental functions (`random.expovariate` and friends),
which are embedded over ℝ.  Python's shared random stream is an explicit
list of uniform draws threaded through `trigger`.  Fallible Python code
(attribute errors, key errors, index errors, division by zero) is embedded
with `Option`: `none` is an uncaught Python exception.
-/
import Mathlib

namespace RepairSim

/-! ### Collector (collector.py)

`Collector.__init__` sets `self.stats = {}` and `self.statTable`; it does
NOT create `self.tempList` — that attribute first exists after `startRow`.
Python dicts are insertion-ordered, so they are embedded as association
lists where setting an existing key updates it in place and setting a new
key appends at the end. -/

/-- Insertion-ordered dictionary update: replace the first binding of `k`
in place, or append `(k, v)` at the end when `k` is absent (Python dict
assignment `d[k] = v`). -/
def dictSet {α : Type} (d : List (String × α)) (k : String) (v : α) :
    List (String × α) :=
  match d with
  | [] => [(k, v)]
  | (k', v') :: rest =>
    if k' = k then (k, v) :: rest else (k', v') :: dictSet rest k v

/-- Dictionary lookup `d[k]`, `none` for a Python `KeyError`. -/
def dictGet {α : Type} (d : List (String × α)) (k : String) : Option α :=
  match d with
  | [] => none
  | (k', v') :: rest => if k' = k then some v' else dictGet rest k

/-- State of a `Collector`.  `tempList = none` means the Python attribute
`self.tempList` does not exist (it is only created by `startRow`). -/
structure Collector where
  stats : List (String × List (String × ℚ))
  statTable : List (String × (List ℚ → ℚ))
  tempList : Option (List ℚ)

/-- `Collector(statTable)`: `self.stats = {}`, no `tempList` yet. -/
def Collector.init (statTable : List (String × (List ℚ → ℚ))) : Collector :=
  { stats := [], statTable := statTable, tempList := none }

/-- `startRow(name)`: `self.stats[name] = {}` and `self.tempList = []`. -/
def Collector.startRow (c : Collector) (name : String) : Collector :=
  { c with stats := dictSet c.stats name [], tempList := some [] }

/-- `collect(x)`: `self.tempList.append(x)`; raises `AttributeError`
(`none`) when `tempList` does not exist yet. -/
def Collector.collect (c : Collector) (x : ℚ) : Option Collector :=
  match c.tempList with
  | none => none
  | some buf => some { c with tempList := some (buf ++ [x]) }

/-- One iteration of the `doneRow` loop body for the remaining entries of
the stat table: `statValue = func(self.tempList)` (raises when `tempList`
is missing), then `self.stats[name][statName] = statValue` (raises when
`name` is not a key of `stats`).  Note the source never clears
`self.tempList`. -/
def Collector.doneRowAux (name : String) :
    List (String × (List ℚ → ℚ)) → Collector → Option Collector
  | [], c => some c
  | (statName, f) :: rest, c =>
    match c.tempList with
    | none => none
    | some buf =>
      match dictGet c.stats name with
      | none => none
      | some row =>
        Collector.doneRowAux name rest
          { c with stats := dictSet c.stats name (dictSet row statName (f buf)) }

/-- `doneRow(name)`: iterate over `self.statTable.items()`. -/
def Collector.doneRow (c : Collector) (name : String) : Option Collector :=
  Collector.doneRowAux name c.statTable c

/-- `extract(stat_name)`: all stored values for that statistic name across
rows, in row-insertion order. -/
def Collector.extract (c : Collector) (statName : String) : List ℚ :=
  c.stats.foldr (fun (row : String × List (String × ℚ)) acc =>
    (row.2.filter (fun p => p.1 = statName)).map Prod.snd ++ acc) []

/-! ### Branching cdf construction and branch selection
(`BranchingProcess.__init__` / `BranchingProcess.trigger` in
randomProcess.py).

The constructor computes running sums of `params.probabilities` into
`self.cdf`; the commented `FIXME: Assert that the sum of probabilities
is 1` marks that NO validation is performed.  `trigger` draws `n =
random.random()` and picks the first branch index `i` with `n < cdf[i]`
(loop with `break`); when no index qualifies, `currentProcess` keeps the
initial integer `0` and the subsequent `.trigger()` call raises. -/

/-- Running-sum table from the probability list (the `__init__` loop
`sum += params.probabilities[i]; self.cdf.append(sum)`), starting from
accumulator `acc`. -/
def buildCdfFrom (acc : ℚ) : List ℚ → List ℚ
  | [] => []
  | p :: ps => (acc + p) :: buildCdfFrom (acc + p) ps

/-- `self.cdf` as built by `BranchingProcess.__init__`. -/
def buildCdf (probs : List ℚ) : List ℚ := buildCdfFrom 0 probs

/-- Branch selection of `BranchingProcess.trigger`: the first index `i`
with `u < cdf[i]`; `none` when no cumulative value exceeds `u` (in the
source `currentProcess` then stays the integer `0` and the call crashes). -/
def selectBranch (cdf : List ℚ) (u : ℚ) : Option ℕ :=
  cdf.findIdx? (fun cᵢ => u < cᵢ)

/-! ### Process trees (randomProcess.py)

`RandomProcess` state is `waitTime`/`count`; the variants add the
composite fields of `ParallelProcess` (`processes`), `SequentialProcess`
(`sequence`, `currentIndex`, `currentProcess`) and `BranchingProcess`
(`branches`, `cdf`, `currentProcess`).  In Python, `currentProcess` is a
reference to the child object stored in the list; here it is the child's
index (`current`), and `none` for `BranchingProcess` before the first
`trigger` (the attribute does not exist yet).  A leaf's `arrivalTime`
draws one uniform sample from the shared `random` stream and transforms
it through its distribution (`dist`). -/

/-- The `waitTime` / `count` pair every `RandomProcess` carries. -/
structure Stats where
  waitTime : ℚ
  count : ℕ
deriving DecidableEq, Repr

inductive RandomProcess : Type where
  | leaf (stats : Stats) (dist : ℚ → ℚ)
  | parallel (stats : Stats) (processes : List RandomProcess)
  | sequential (stats : Stats) (sequence : List RandomProcess)
      (currentIndex : ℕ) (current : ℕ)
  | branching (stats : Stats) (branches : List RandomProcess)
      (cdf : List ℚ) (current : Option ℕ)

/-- A node's own `self.waitTime` / `self.count`. -/
def ownStats : RandomProcess → Stats
  | .leaf st _ => st
  | .parallel st _ => st
  | .sequential st _ _ _ => st
  | .branching st _ _ _ => st

/-- `updateStatistics(waitTime, count)`.  The base method (used unchanged
by leaves AND by `ParallelProcess`, which does not override it) does
`self.waitTime += waitTime; self.count += count`.  `SequentialProcess`
and `BranchingProcess` override it to
`self.currentProcess.updateStatistics(waitTime, count)`; mutating the
child through that reference is embedded as `List.set` at the recorded
index.  (The out-of-range/`none` fallbacks are unreachable for processes
whose `currentProcess` reference exists, as after any successful
`trigger`.) -/
def updateStatistics : RandomProcess → ℚ → ℕ → RandomProcess
  | .leaf st d, dt, n => .leaf ⟨st.waitTime + dt, st.count + n⟩ d
  | .parallel st ps, dt, n => .parallel ⟨st.waitTime + dt, st.count + n⟩ ps
  | .sequential st sq idx cur, dt, n =>
      match h : sq[cur]? with
      | none => .sequential st sq idx cur
      | some child =>
          .sequential st (sq.set cur (updateStatistics child dt n)) idx cur
  | .branching st brs cdf cur, dt, n =>
      match cur with
      | none => .branching st brs cdf none
      | some i =>
        match h : brs[i]? with
        | none => .branching st brs cdf (some i)
        | some b => .branching st (brs.set i (updateStatistics b dt n)) cdf (some i)
termination_by p _ _ => sizeOf p
decreasing_by
  · have := List.sizeOf_lt_of_mem (List.getElem?_mem h)
    simp only [RandomProcess.sequential.sizeOf_spec]
    omega
  · have := List.sizeOf_lt_of_mem (List.getElem?_mem h)
    simp only [RandomProcess.branching.sizeOf_spec]
    omega

mutual
/-- `trigger()` threading the shared uniform stream.
  * leaf: `arrivalTime()` consumes one draw `u`, the timeout's delay is
    `dist u`;
  * `ParallelProcess.trigger`: triggers every child in list order, then
    `AnyOf` fires at the earliest of the children's timeouts;
  * `SequentialProcess.trigger`: `currentProcess = sequence[currentIndex]`,
    `currentIndex = (currentIndex+1) % len(sequence)`, delegate;
  * `BranchingProcess.trigger`: `n = random.random()`; first index with
    `n < cdf[i]` (via `selectBranch`), delegate to that branch; when no
    branch qualifies `currentProcess` stays the integer `0` and the
    delegated call raises (`none`).
`none` is an uncaught exception (empty stream, `IndexError`, …). -/
def trigger : RandomProcess → List ℚ → Option (ℚ × RandomProcess × List ℚ)
  | .leaf st d, s =>
      match s with
      | [] => none
      | u :: rest => some (d u, .leaf st d, rest)
  | .parallel st ps, s =>
      match triggerAll ps s with
      | none => none
      | some (ds, ps', s') =>
        match ds.min? with
        | none => none
        | some dmin => some (dmin, .parallel st ps', s')
  | .sequential st sq idx _, s =>
      match h : sq[idx]? with
      | none => none
      | some child =>
        match trigger child s with
        | none => none
        | some (d, child', s') =>
          some (d, .sequential st (sq.set idx child') ((idx + 1) % sq.length) idx, s')
  | .branching st brs cdf _, s =>
      match s with
      | [] => none
      | u :: rest =>
        match selectBranch cdf u with
        | none => none
        | some i =>
          match h : brs[i]? with
          | none => none
          | some b =>
            match trigger b rest with
            | none => none
            | some (d, b', s') =>
              some (d, .branching st (brs.set i b') cdf (some i), s')
termination_by p _ => sizeOf p
decreasing_by
  · simp only [RandomProcess.parallel.sizeOf_spec]; omega
  · have := List.sizeOf_lt_of_mem (List.getElem?_mem h)
    simp only [RandomProcess.sequential.sizeOf_spec]
    omega
  · have := List.sizeOf_lt_of_mem (List.getElem?_mem h)
    simp only [RandomProcess.branching.sizeOf_spec]
    omega

/-- Trigger every child of a `ParallelProcess` in list order (the
`for process in self.processes: events.append(process.trigger())` loop),
returning the delays, the post-trigger children and the remaining
stream. -/
def triggerAll : List RandomProcess → List ℚ →
    Option (List ℚ × List RandomProcess × List ℚ)
  | [], s => some ([], [], s)
  | p :: ps, s =>
      match trigger p s with
      | none => none
      | some (d, p', s') =>
        match triggerAll ps s' with
        | none => none
        | some (ds, ps', s'') => some (d :: ds, p' :: ps', s'')
termination_by ps _ => sizeOf ps
decreasing_by
  all_goals first
    | (simp; omega)
    | simp
end

/-- One iteration of the `run` loop at the tree root: yield the trigger
event; since the root is the only SimPy process, the clock advances
exactly by the event's delay, so `elapsedTime = env.now - prevTime` is
that delay; then `updateStatistics(elapsedTime, 1)`. -/
def runRound (p : RandomProcess) (s : List ℚ) :
    Option (RandomProcess × List ℚ) :=
  match trigger p s with
  | none => none
  | some (d, p', s') => some (updateStatistics p' d 1, s')

/-- `m` completed cycles of the `run` loop. -/
def runRounds : ℕ → RandomProcess → List ℚ → Option (RandomProcess × List ℚ)
  | 0, p, s => some (p, s)
  | m + 1, p, s =>
    match runRound p s with
    | none => none
    | some (p', s') => runRounds m p' s'

/-! ### Derived statistics (`collect`)

`RandomProcess.collect` does `stats.collect(self.waitTime / self.count)`:
with `count = 0` this is a Python `ZeroDivisionError`, embedded as `none`.
`TwoStageFailureRecovery.collect` (randomFailure.py) reports
`upTime / (upTime + downTime)` from its two stages' `waitTime`s, likewise
raising when the denominator is zero. -/

/-- The scalar `RandomProcess.collect` pushes into the collector:
`self.waitTime / self.count`, `none` on `ZeroDivisionError`. -/
def collectValue (p : RandomProcess) : Option ℚ :=
  if (ownStats p).count = 0 then none
  else some ((ownStats p).waitTime / (ownStats p).count)

/-- The scalar `TwoStageFailureRecovery.collect` pushes:
`upTime = sequence[0].waitTime`, `downTime = sequence[1].waitTime`,
value `upTime / (upTime + downTime)`; `none` on `ZeroDivisionError`
(or when the process is not a two-stage sequential chain). -/
def twoStageCollectValue (p : RandomProcess) : Option ℚ :=
  match p with
  | .sequential _ sq _ _ =>
    match sq[0]?, sq[1]? with
    | some fail, some recover =>
      let upTime := (ownStats fail).waitTime
      let downTime := (ownStats recover).waitTime
      if upTime + downTime = 0 then none else some (upTime / (upTime + downTime))
    | _, _ => none
  | _ => none

/-! ### Leaf distributions (randomFailure.py / randomProcess.py)

`random.expovariate(lambd)` is `-log(1 - random()) / lambd`;
`random.uniform(a, b)` is `a + (b - a) * random()`;
`random.weibullvariate(alpha, beta)` is
`alpha * (-log(1 - random())) ** (1/beta)`.
These transcendental samplers are embedded over ℝ, as functions of the
uniform draw `u = random()`.  The constructors
(`ExponentialFailure.__init__` etc.) merely store the parameter fields
from `params`; NO validation of any kind is performed and no
`DegenerateInputError` (or `ConfigurationError`) class exists anywhere in
the source. -/

noncomputable def expovariate (lambd u : ℝ) : ℝ := -Real.log (1 - u) / lambd

def uniformVariate (a b u : ℝ) : ℝ := a + (b - a) * u

noncomputable def weibullvariate (alpha beta u : ℝ) : ℝ :=
  alpha * (-Real.log (1 - u)) ^ ((1 : ℝ) / beta)

/-- The parameter fields the distribution constructors read. -/
structure SimParams where
  failure_rate : ℝ
  failure_a : ℝ
  failure_b : ℝ
  failure_alpha : ℝ
  failure_beta : ℝ

structure ExponentialFailure where
  rate : ℝ

/-- `ExponentialFailure.__init__`: `self.rate = params.failure_rate`
(no validation; construction always succeeds). -/
def ExponentialFailure.init (params : SimParams) : ExponentialFailure :=
  ⟨params.failure_rate⟩

/-- `ExponentialProcess.arrivalTime`: `return random.expovariate(self.rate)`. -/
noncomputable def ExponentialFailure.arrivalTime (p : ExponentialFailure)
    (u : ℝ) : Option ℝ :=
  some (expovariate p.rate u)

structure UniformFailure where
  a : ℝ
  b : ℝ

/-- `UniformFailure.__init__`: `self.a = params.failure_a;
self.b = params.failure_b` (no validation). -/
def UniformFailure.init (params : SimParams) : UniformFailure :=
  ⟨params.failure_a, params.failure_b⟩

/-- `UniformProcess.arrivalTime`: `return random.uniform(self.a, self.b)`. -/
def UniformFailure.arrivalTime (p : UniformFailure) (u : ℝ) : Option ℝ :=
  some (uniformVariate p.a p.b u)

structure WeibullFailure where
  alpha : ℝ
  beta : ℝ

/-- `WeibullFailure.__init__`: `self.alpha = params.failure_alpha;
self.beta = params.failure_beta` (no validation). -/
def WeibullFailure.init (params : SimParams) : WeibullFailure :=
  ⟨params.failure_alpha, params.failure_beta⟩

/-- `WeibullProcess.arrivalTime` — the body is the bare expression
`random.weibullvariate(self.alpha, self.beta)` with NO `return`
statement, so the sample is computed, discarded, and the call returns
Python `None`. -/
noncomputable def WeibullFailure.arrivalTime (p : WeibullFailure)
    (u : ℝ) : Option ℝ :=
  let _sample := weibullvariate p.alpha p.beta u
  none

/-! ### Observation helpers

`statsList` lists every node's `(waitTime, count)` pair in pre-order;
`totalCount`/`totalWait` are the completed-cycle count and accumulated
wait time attributed anywhere within a subtree. -/

mutual
def statsList : RandomProcess → List Stats
  | .leaf st _ => [st]
  | .parallel st ps => st :: statsListAll ps
  | .sequential st sq _ _ => st :: statsListAll sq
  | .branching st brs _ _ => st :: statsListAll brs
termination_by p => sizeOf p
decreasing_by
  all_goals first
    | (simp; omega)
    | simp

def statsListAll : List RandomProcess → List Stats
  | [] => []
  | p :: ps => statsList p ++ statsListAll ps
termination_by ps => sizeOf ps
decreasing_by
  all_goals first
    | (simp; omega)
    | simp
end

def totalCount (p : RandomProcess) : ℕ := ((statsList p).map Stats.count).sum

def totalCountAll (ps : List RandomProcess) : ℕ :=
  ((statsListAll ps).map Stats.count).sum

def totalWait (p : RandomProcess) : ℚ := ((statsList p).map Stats.waitTime).sum

def totalWaitAll (ps : List RandomProcess) : ℚ :=
  ((statsListAll ps).map Stats.waitTime).sum

/-- The `currentProcess` delegation chain of `updateStatistics` is intact:
every `current` reference on the chain denotes an existing child.  This
holds for any process a successful `trigger` just returned. -/
def updOk : RandomProcess → Prop
  | .leaf _ _ => True
  | .parallel _ _ => True
  | .sequential _ sq _ cur =>
      match h : sq[cur]? with
      | none => False
      | some child => updOk child
  | .branching _ brs _ cur =>
      match cur with
      | none => False
      | some i =>
        match h : brs[i]? with
        | none => False
        | some b => updOk b
termination_by p => sizeOf p
decreasing_by
  · have := List.sizeOf_lt_of_mem (List.getElem?_mem h)
    simp only [RandomProcess.sequential.sizeOf_spec]
    omega
  · have := List.sizeOf_lt_of_mem (List.getElem?_mem h)
    simp only [RandomProcess.branching.sizeOf_spec]
    omega

/-! ### Unfolding equations

The recursive definitions above are compiled by well-founded recursion
and their automatic equations carry dependent matches; the following
plain equations are the ones used in proofs. -/

theorem updateStatistics_leaf (st : Stats) (d : ℚ → ℚ) (dt : ℚ) (n : ℕ) :
    updateStatistics (.leaf st d) dt n = .leaf ⟨st.waitTime + dt, st.count + n⟩ d := by
  rw [updateStatistics.eq_1]

theorem updateStatistics_parallel (st : Stats) (ps : List RandomProcess)
    (dt : ℚ) (n : ℕ) :
    updateStatistics (.parallel st ps) dt n =
      .parallel ⟨st.waitTime + dt, st.count + n⟩ ps := by
  rw [updateStatistics.eq_2]

theorem updateStatistics_sequential (st : Stats) (sq : List RandomProcess)
    (idx cur : ℕ) (dt : ℚ) (n : ℕ) :
    updateStatistics (.sequential st sq idx cur) dt n =
      match sq[cur]? with
      | none => .sequential st sq idx cur
      | some child =>
          .sequential st (sq.set cur (updateStatistics child dt n)) idx cur := by
  rw [updateStatistics.eq_3]
  split <;> rename_i h <;> simp [h]

theorem updateStatistics_branching (st : Stats) (brs : List RandomProcess)
    (cdf : List ℚ) (cur : Option ℕ) (dt : ℚ) (n : ℕ) :
    updateStatistics (.branching st brs cdf cur) dt n =
      match cur with
      | none => .branching st brs cdf none
      | some i =>
        match brs[i]? with
        | none => .branching st brs cdf (some i)
        | some b =>
            .branching st (brs.set i (updateStatistics b dt n)) cdf (some i) := by
  cases cur with
  | none => rw [updateStatistics.eq_4]
  | some i =>
      rw [updateStatistics.eq_5]
      split <;> rename_i h <;> simp [h]

theorem trigger_leaf (st : Stats) (d : ℚ → ℚ) (s : List ℚ) :
    trigger (.leaf st d) s =
      match s with
      | [] => none
      | u :: rest => some (d u, .leaf st d, rest) := by
  cases s with
  | nil => rw [trigger.eq_1]
  | cons u rest => rw [trigger.eq_2]

theorem trigger_parallel (st : Stats) (ps : List RandomProcess) (s : List ℚ) :
    trigger (.parallel st ps) s =
      match triggerAll ps s with
      | none => none
      | some (ds, ps', s') =>
        match ds.min? with
        | none => none
        | some dmin => some (dmin, .parallel st ps', s') := by
  rw [trigger.eq_3]

theorem trigger_sequential (st : Stats) (sq : List RandomProcess)
    (idx cur : ℕ) (s : List ℚ) :
    trigger (.sequential st sq idx cur) s =
      match sq[idx]? with
      | none => none
      | some child =>
        match trigger child s with
        | none => none
        | some (d, child', s') =>
          some (d, .sequential st (sq.set idx child') ((idx + 1) % sq.length) idx, s') := by
  rw [trigger.eq_4]
  split <;> rename_i h <;> simp [h]

theorem trigger_branching (st : Stats) (brs : List RandomProcess)
    (cdf : List ℚ) (cur : Option ℕ) (s : List ℚ) :
    trigger (.branching st brs cdf cur) s =
      match s with
      | [] => none
      | u :: rest =>
        match selectBranch cdf u with
        | none => none
        | some i =>
          match brs[i]? with
          | none => none
          | some b =>
            match trigger b rest with
            | none => none
            | some (d, b', s') =>
              some (d, .branching st (brs.set i b') cdf (some i), s') := by
  cases s with
  | nil => rw [trigger.eq_5]
  | cons u rest =>
      rw [trigger.eq_6]
      cases hi : selectBranch cdf u with
      | none => simp [hi]
      | some i =>
          simp only [hi]
          split <;> rename_i h <;> simp [h]

theorem triggerAll_nil (s : List ℚ) : triggerAll [] s = some ([], [], s) := by
  rw [triggerAll.eq_1]

theorem triggerAll_cons (p : RandomProcess) (ps : List RandomProcess) (s : List ℚ) :
    triggerAll (p :: ps) s =
      match trigger p s with
      | none => none
      | some (d, p', s') =>
        match triggerAll ps s' with
        | none => none
        | some (ds, ps', s'') => some (d :: ds, p' :: ps', s'') := by
  rw [triggerAll.eq_2]

theorem updOk_leaf (st : Stats) (d : ℚ → ℚ) : updOk (.leaf st d) := by
  rw [updOk.eq_1]; trivial

theorem updOk_parallel (st : Stats) (ps : List RandomProcess) :
    updOk (.parallel st ps) := by
  rw [updOk.eq_2]; trivial

theorem updOk_sequential (st : Stats) (sq : List RandomProcess) (idx cur : ℕ) :
    updOk (.sequential st sq idx cur) ↔
      ∃ child, sq[cur]? = some child ∧ updOk child := by
  rw [updOk.eq_3]
  split <;> rename_i h <;> simp [h]

theorem updOk_branching (st : Stats) (brs : List RandomProcess)
    (cdf : List ℚ) (cur : Option ℕ) :
    updOk (.branching st brs cdf cur) ↔
      ∃ i b, cur = some i ∧ brs[i]? = some b ∧ updOk b := by
  cases cur with
  | none => rw [updOk.eq_4]; simp
  | some i =>
      rw [updOk.eq_5]
      split <;> rename_i h <;> simp [h]

theorem statsList_leaf (st : Stats) (d : ℚ → ℚ) : statsList (.leaf st d) = [st] := by
  rw [statsList]

theorem statsList_parallel (st : Stats) (ps : List RandomProcess) :
    statsList (.parallel st ps) = st :: statsListAll ps := by
  rw [statsList]

theorem statsList_sequential (st : Stats) (sq : List RandomProcess) (idx cur : ℕ) :
    statsList (.sequential st sq idx cur) = st :: statsListAll sq := by
  rw [statsList]

theorem statsList_branching (st : Stats) (brs : List RandomProcess)
    (cdf : List ℚ) (cur : Option ℕ) :
    statsList (.branching st brs cdf cur) = st :: statsListAll brs := by
  rw [statsList]

theorem statsListAll_nil : statsListAll [] = [] := by
  rw [statsListAll]

theorem statsListAll_cons (p : RandomProcess) (ps : List RandomProcess) :
    statsListAll (p :: ps) = statsList p ++ statsListAll ps := by
  rw [statsListAll]

theorem totalCount_eq (p : RandomProcess) :
    totalCount p = ((statsList p).map Stats.count).sum := rfl

theorem totalCountAll_nil : totalCountAll [] = 0 := by
  simp [totalCountAll, statsListAll_nil]

theorem totalCountAll_cons (p : RandomProcess) (ps : List RandomProcess) :
    totalCountAll (p :: ps) = totalCount p + totalCountAll ps := by
  simp [totalCountAll, totalCount, statsListAll_cons]

/-- Replacing the `j`-th child exchanges its subtree count for the new
one and leaves the rest of the sum alone. -/
theorem totalCountAll_set (sq : List RandomProcess) (j : ℕ)
    (c : RandomProcess) (hj : j < sq.length) (x : RandomProcess)
    (hc : sq[j]? = some c) :
    totalCountAll (sq.set j x) + totalCount c = totalCountAll sq + totalCount x := by
  induction sq generalizing j with
  | nil => simp at hj
  | cons a as ih =>
      cases j with
      | zero =>
          simp at hc
          subst hc
          simp [List.set, totalCountAll_cons]
          omega
      | succ j' =>
          simp at hc hj
          simp only [List.set_cons_succ, totalCountAll_cons]
          have := ih j' hj hc
          omega

/-! ### Inversion principles for successful triggers -/

theorem trigger_leaf_inv {st : Stats} {d : ℚ → ℚ} {s : List ℚ}
    {x : ℚ × RandomProcess × List ℚ} (h : trigger (.leaf st d) s = some x) :
    ∃ u rest, s = u :: rest ∧ x = (d u, .leaf st d, rest) := by
  rw [trigger_leaf] at h
  cases s with
  | nil => simp at h
  | cons u rest =>
      refine ⟨u, rest, rfl, ?_⟩
      simpa using h.symm

theorem trigger_parallel_inv {st : Stats} {ps : List RandomProcess}
    {s : List ℚ} {d : ℚ} {p' : RandomProcess} {s' : List ℚ}
    (h : trigger (.parallel st ps) s = some (d, p', s')) :
    ∃ ds ps', triggerAll ps s = some (ds, ps', s') ∧ ds.min? = some d ∧
      p' = .parallel st ps' := by
  rw [trigger_parallel] at h
  cases hall : triggerAll ps s with
  | none => simp [hall] at h
  | some t =>
      obtain ⟨ds, ps2, s2⟩ := t
      simp only [hall] at h
      cases hmin : ds.min? with
      | none => simp [hmin] at h
      | some dmin =>
          simp only [hmin, Option.some.injEq, Prod.mk.injEq] at h
          obtain ⟨h1, h2, h3⟩ := h
          subst h3
          exact ⟨ds, ps2, rfl, by rw [hmin, h1], h2.symm⟩

theorem trigger_sequential_inv {st : Stats} {sq : List RandomProcess}
    {idx cur : ℕ} {s : List ℚ} {d : ℚ} {p' : RandomProcess} {s' : List ℚ}
    (h : trigger (.sequential st sq idx cur) s = some (d, p', s')) :
    ∃ child child', sq[idx]? = some child ∧
      trigger child s = some (d, child', s') ∧
      p' = .sequential st (sq.set idx child') ((idx + 1) % sq.length) idx := by
  rw [trigger_sequential] at h
  cases hc : sq[idx]? with
  | none => simp [hc] at h
  | some child =>
      simp only [hc] at h
      cases ht : trigger child s with
      | none => simp [ht] at h
      | some y =>
          obtain ⟨d2, child2, s2⟩ := y
          simp only [ht, Option.some.injEq, Prod.mk.injEq] at h
          obtain ⟨h1, h2, h3⟩ := h
          subst h1 h3
          exact ⟨child, child2, rfl, ht, h2.symm⟩

theorem trigger_branching_inv {st : Stats} {brs : List RandomProcess}
    {cdf : List ℚ} {cur : Option ℕ} {s : List ℚ} {d : ℚ}
    {p' : RandomProcess} {s' : List ℚ}
    (h : trigger (.branching st brs cdf cur) s = some (d, p', s')) :
    ∃ u rest i b b', s = u :: rest ∧ selectBranch cdf u = some i ∧
      brs[i]? = some b ∧ trigger b rest = some (d, b', s') ∧
      p' = .branching st (brs.set i b') cdf (some i) := by
  rw [trigger_branching] at h
  cases s with
  | nil => simp at h
  | cons u rest =>
      cases hi : selectBranch cdf u with
      | none => simp [hi] at h
      | some i =>
          simp only [hi] at h
          cases hb : brs[i]? with
          | none => simp [hb] at h
          | some b =>
              simp only [hb] at h
              cases ht : trigger b rest with
              | none => simp [ht] at h
              | some y =>
                  obtain ⟨d2, b2, s2⟩ := y
                  simp only [ht, Option.some.injEq, Prod.mk.injEq] at h
                  obtain ⟨h1, h2, h3⟩ := h
                  subst h1 h3
                  exact ⟨u, rest, i, b, b2, rfl, hi, hb, ht, h2.symm⟩

theorem triggerAll_cons_inv {p : RandomProcess} {ps : List RandomProcess}
    {s : List ℚ} {ds : List ℚ} {qs : List RandomProcess} {s' : List ℚ}
    (h : triggerAll (p :: ps) s = some (ds, qs, s')) :
    ∃ d p' s1 ds' ps', trigger p s = some (d, p', s1) ∧
      triggerAll ps s1 = some (ds', ps', s') ∧ ds = d :: ds' ∧ qs = p' :: ps' := by
  rw [triggerAll_cons] at h
  cases ht : trigger p s with
  | none => simp [ht] at h
  | some y =>
      obtain ⟨d, p2, s1⟩ := y
      simp only [ht] at h
      cases hall : triggerAll ps s1 with
      | none => simp [hall] at h
      | some t =>
          obtain ⟨ds2, ps2, s2⟩ := t
          simp only [hall, Option.some.injEq, Prod.mk.injEq] at h
          obtain ⟨h1, h2, h3⟩ := h
          subst h3
          exact ⟨d, p2, s1, ds2, ps2, rfl, hall, h1.symm, h2.symm⟩

/-! ### Statistics preservation and attribution lemmas -/

theorem statsListAll_set (sq : List RandomProcess) (j : ℕ)
    (c x : RandomProcess) (hc : sq[j]? = some c)
    (hx : statsList x = statsList c) :
    statsListAll (sq.set j x) = statsListAll sq := by
  induction sq generalizing j with
  | nil => simp at hc
  | cons a as ih =>
      cases j with
      | zero =>
          simp at hc
          subst hc
          simp [List.set, statsListAll_cons, hx]
      | succ j' =>
          simp at hc
          simp only [List.set_cons_succ, statsListAll_cons, ih j' hc]

/-- Joint statement for the size induction behind `trigger_statsList` and
`triggerAll_statsListAll`. -/
theorem trigger_statsList_aux (n : ℕ) :
    (∀ p : RandomProcess, sizeOf p < n → ∀ s d p' s',
        trigger p s = some (d, p', s') → statsList p' = statsList p) ∧
    (∀ ps : List RandomProcess, sizeOf ps < n → ∀ s ds ps' s',
        triggerAll ps s = some (ds, ps', s') →
          statsListAll ps' = statsListAll ps) := by
  induction n using Nat.strong_induction_on with
  | _ n ih =>
    constructor
    · intro p hp s d p' s' h
      cases p with
      | leaf st dist =>
          obtain ⟨u, rest, hs, hx⟩ := trigger_leaf_inv h
          simp only [Prod.mk.injEq] at hx
          rw [hx.2.1]
      | parallel st ps =>
          obtain ⟨ds, ps2, hall, hmin, hq⟩ := trigger_parallel_inv h
          subst hq
          have hps : sizeOf ps < sizeOf (RandomProcess.parallel st ps) := by
            simp only [RandomProcess.parallel.sizeOf_spec]; omega
          rw [statsList_parallel, statsList_parallel,
            (ih _ hp).2 ps hps s ds ps2 s' hall]
      | sequential st sq idx cur =>
          obtain ⟨child, child2, hc, ht, hq⟩ := trigger_sequential_inv h
          subst hq
          have hchild : sizeOf child < sizeOf (RandomProcess.sequential st sq idx cur) := by
            have := List.sizeOf_lt_of_mem (List.getElem?_mem hc)
            simp only [RandomProcess.sequential.sizeOf_spec]; omega
          rw [statsList_sequential, statsList_sequential,
            statsListAll_set sq idx child child2 hc
              ((ih _ hp).1 child hchild s d child2 s' ht)]
      | branching st brs cdf cur =>
          obtain ⟨u, rest, i, b, b2, hs, hi, hb, ht, hq⟩ := trigger_branching_inv h
          subst hq
          have hbsz : sizeOf b < sizeOf (RandomProcess.branching st brs cdf cur) := by
            have := List.sizeOf_lt_of_mem (List.getElem?_mem hb)
            simp only [RandomProcess.branching.sizeOf_spec]; omega
          rw [statsList_branching, statsList_branching,
            statsListAll_set brs i b b2 hb
              ((ih _ hp).1 b hbsz rest d b2 s' ht)]
    · intro ps hps s ds ps' s' h
      cases ps with
      | nil =>
          rw [triggerAll_nil] at h
          simp only [Option.some.injEq, Prod.mk.injEq] at h
          rw [← h.2.1]
      | cons p rest =>
          obtain ⟨d, p2, s1, ds2, ps2, ht, hall, hds, hqs⟩ := triggerAll_cons_inv h
          subst hqs
          have h1 : sizeOf p < sizeOf (p :: rest) := by simp only [List.cons.sizeOf_spec]; omega
          have h2 : sizeOf rest < sizeOf (p :: rest) := by simp only [List.cons.sizeOf_spec]; omega
          rw [statsListAll_cons, statsListAll_cons,
            (ih _ hps).1 p h1 s d p2 s1 ht,
            (ih _ hps).2 rest h2 s1 ds2 ps2 s' hall]

/-- `trigger` never changes any node's `waitTime`/`count`: statistics move
only in `updateStatistics`. -/
theorem trigger_statsList {p : RandomProcess} {s : List ℚ} {d : ℚ}
    {p' : RandomProcess} {s' : List ℚ}
    (h : trigger p s = some (d, p', s')) : statsList p' = statsList p :=
  (trigger_statsList_aux (sizeOf p + 1)).1 p (Nat.lt_succ_self _) s d p' s' h

theorem triggerAll_statsListAll {ps : List RandomProcess} {s : List ℚ}
    {ds : List ℚ} {ps' : List RandomProcess} {s' : List ℚ}
    (h : triggerAll ps s = some (ds, ps', s')) :
    statsListAll ps' = statsListAll ps :=
  (trigger_statsList_aux (sizeOf ps + 1)).2 ps (Nat.lt_succ_self _) s ds ps' s' h

theorem totalWaitAll_nil : totalWaitAll [] = 0 := by
  simp [totalWaitAll, statsListAll_nil]

theorem totalWaitAll_cons (p : RandomProcess) (ps : List RandomProcess) :
    totalWaitAll (p :: ps) = totalWait p + totalWaitAll ps := by
  simp [totalWaitAll, totalWait, statsListAll_cons]

theorem totalWaitAll_set (sq : List RandomProcess) (j : ℕ)
    (c : RandomProcess) (x : RandomProcess) (hc : sq[j]? = some c) :
    totalWaitAll (sq.set j x) + totalWait c = totalWaitAll sq + totalWait x := by
  induction sq generalizing j with
  | nil => simp at hc
  | cons a as ih =>
      cases j with
      | zero =>
          simp at hc
          subst hc
          simp only [List.set_cons_zero, totalWaitAll_cons]
          ring
      | succ j' =>
          simp at hc
          simp only [List.set_cons_succ, totalWaitAll_cons]
          have := ih j' hc
          linarith

/-- After any successful `trigger`, the `currentProcess` chain of
references the following `updateStatistics` call walks is intact. -/
theorem trigger_updOk_aux (n : ℕ) :
    ∀ p : RandomProcess, sizeOf p < n → ∀ s d p' s',
      trigger p s = some (d, p', s') → updOk p' := by
  induction n using Nat.strong_induction_on with
  | _ n ih =>
    intro p hp s d p' s' h
    cases p with
    | leaf st dist =>
        obtain ⟨u, rest, hs, hx⟩ := trigger_leaf_inv h
        simp only [Prod.mk.injEq] at hx
        rw [hx.2.1]
        exact updOk_leaf st dist
    | parallel st ps =>
        obtain ⟨ds, ps2, hall, hmin, hq⟩ := trigger_parallel_inv h
        subst hq
        exact updOk_parallel st ps2
    | sequential st sq idx cur =>
        obtain ⟨child, child2, hc, ht, hq⟩ := trigger_sequential_inv h
        subst hq
        have hchild : sizeOf child < sizeOf (RandomProcess.sequential st sq idx cur) := by
          have := List.sizeOf_lt_of_mem (List.getElem?_mem hc)
          simp only [RandomProcess.sequential.sizeOf_spec]; omega
        have hlen : idx < sq.length := (List.getElem?_eq_some_iff.mp hc).1
        rw [updOk_sequential]
        refine ⟨child2, ?_, ih _ hp child hchild s d child2 s' ht⟩
        rw [List.getElem?_set_self]
        · exact (List.length_set sq idx child2).symm ▸ hlen
    | branching st brs cdf cur =>
        obtain ⟨u, rest, i, b, b2, hs, hi, hb, ht, hq⟩ := trigger_branching_inv h
        subst hq
        have hbsz : sizeOf b < sizeOf (RandomProcess.branching st brs cdf cur) := by
          have := List.sizeOf_lt_of_mem (List.getElem?_mem hb)
          simp only [RandomProcess.branching.sizeOf_spec]; omega
        have hlen : i < brs.length := (List.getElem?_eq_some_iff.mp hb).1
        rw [updOk_branching]
        refine ⟨i, b2, rfl, ?_, ih _ hp b hbsz rest d b2 s' ht⟩
        rw [List.getElem?_set_self]
        · exact (List.length_set brs i b2).symm ▸ hlen

theorem trigger_updOk {p : RandomProcess} {s : List ℚ} {d : ℚ}
    {p' : RandomProcess} {s' : List ℚ}
    (h : trigger p s = some (d, p', s')) : updOk p' :=
  trigger_updOk_aux (sizeOf p + 1) p (Nat.lt_succ_self _) s d p' s' h

/-- Along an intact `currentProcess` chain, one `updateStatistics(dt, n)`
call adds exactly `dt` to the total accumulated wait time and `n` to the
total completed-cycle count of the subtree, landing on the single node at
the end of the delegation chain. -/
theorem updateStatistics_total_aux (m : ℕ) :
    ∀ p : RandomProcess, sizeOf p < m → updOk p → ∀ (dt : ℚ) (n : ℕ),
      totalCount (updateStatistics p dt n) = totalCount p + n ∧
      totalWait (updateStatistics p dt n) = totalWait p + dt := by
  induction m using Nat.strong_induction_on with
  | _ m ih =>
    intro p hp hok dt n
    cases p with
    | leaf st dist =>
        rw [updateStatistics_leaf]
        simp [totalCount, totalWait, statsList_leaf]
    | parallel st ps =>
        rw [updateStatistics_parallel]
        constructor
        · simp [totalCount, statsList_parallel]; omega
        · simp [totalWait, statsList_parallel]; ring
    | sequential st sq idx cur =>
        rw [updOk_sequential] at hok
        obtain ⟨child, hc, hokc⟩ := hok
        have hchild : sizeOf child < sizeOf (RandomProcess.sequential st sq idx cur) := by
          have := List.sizeOf_lt_of_mem (List.getElem?_mem hc)
          simp only [RandomProcess.sequential.sizeOf_spec]; omega
        have hlen : cur < sq.length := (List.getElem?_eq_some_iff.mp hc).1
        obtain ⟨ihc, ihw⟩ := ih _ hp child hchild hokc dt n
        rw [updateStatistics_sequential, hc]
        have hcset := totalCountAll_set sq cur child hlen (updateStatistics child dt n) hc
        have hwset := totalWaitAll_set sq cur child (updateStatistics child dt n) hc
        constructor
        · simp only [totalCount, totalCountAll, statsList_sequential, List.map_cons,
            List.sum_cons] at ihc hcset ⊢
          omega
        · simp only [totalWait, totalWaitAll, statsList_sequential, List.map_cons,
            List.sum_cons] at ihw hwset ⊢
          linarith
    | branching st brs cdf cur =>
        rw [updOk_branching] at hok
        obtain ⟨i, b, hcur, hb, hokb⟩ := hok
        subst hcur
        have hbsz : sizeOf b < sizeOf (RandomProcess.branching st brs cdf (some i)) := by
          have := List.sizeOf_lt_of_mem (List.getElem?_mem hb)
          simp only [RandomProcess.branching.sizeOf_spec]; omega
        have hlen : i < brs.length := (List.getElem?_eq_some_iff.mp hb).1
        obtain ⟨ihc, ihw⟩ := ih _ hp b hbsz hokb dt n
        rw [updateStatistics_branching]
        simp only [hb]
        have hcset := totalCountAll_set brs i b hlen (updateStatistics b dt n) hb
        have hwset := totalWaitAll_set brs i b (updateStatistics b dt n) hb
        constructor
        · simp only [totalCount, totalCountAll, statsList_branching, List.map_cons,
            List.sum_cons] at ihc hcset ⊢
          omega
        · simp only [totalWait, totalWaitAll, statsList_branching, List.map_cons,
            List.sum_cons] at ihw hwset ⊢
          linarith

theorem updateStatistics_totalCount {p : RandomProcess} (hok : updOk p)
    (dt : ℚ) (n : ℕ) :
    totalCount (updateStatistics p dt n) = totalCount p + n :=
  ((updateStatistics_total_aux (sizeOf p + 1)) p (Nat.lt_succ_self _) hok dt n).1

theorem updateStatistics_totalWait {p : RandomProcess} (hok : updOk p)
    (dt : ℚ) (n : ℕ) :
    totalWait (updateStatistics p dt n) = totalWait p + dt :=
  ((updateStatistics_total_aux (sizeOf p + 1)) p (Nat.lt_succ_self _) hok dt n).2

/-! ### cdf construction lemmas -/

theorem buildCdfFrom_getLast (l : List ℚ) :
    ∀ acc : ℚ, l ≠ [] → (buildCdfFrom acc l).getLast? = some (acc + l.sum) := by
  induction l with
  | nil => intro acc h; exact absurd rfl h
  | cons p ps ih =>
      intro acc _
      cases ps with
      | nil => simp [buildCdfFrom]
      | cons q qs =>
          rw [show buildCdfFrom acc (p :: q :: qs) =
              (acc + p) :: buildCdfFrom (acc + p) (q :: qs) from rfl,
            show buildCdfFrom (acc + p) (q :: qs) =
              (acc + p + q) :: buildCdfFrom (acc + p + q) qs from rfl,
            List.getLast?_cons_cons,
            show (acc + p + q) :: buildCdfFrom (acc + p + q) qs =
              buildCdfFrom (acc + p) (q :: qs) from rfl,
            ih (acc + p) (by simp)]
          simp only [List.sum_cons, Option.some.injEq]
          ring

theorem buildCdfFrom_chain (l : List ℚ) :
    ∀ acc : ℚ, (∀ p ∈ l, 0 ≤ p) →
      List.Chain' (· ≤ ·) (buildCdfFrom acc l) := by
  induction l with
  | nil => intro acc _; simp [buildCdfFrom]
  | cons p ps ih =>
      intro acc h
      cases ps with
      | nil => simp [buildCdfFrom]
      | cons q qs =>
          rw [show buildCdfFrom acc (p :: q :: qs) =
              (acc + p) :: (acc + p + q) :: buildCdfFrom (acc + p + q) qs from rfl]
          rw [List.chain'_cons]
          constructor
          · have : 0 ≤ q := h q (by simp)
            linarith
          · rw [show (acc + p + q) :: buildCdfFrom (acc + p + q) qs =
                buildCdfFrom (acc + p) (q :: qs) from rfl]
            exact ih (acc + p) (fun x hx => h x (by simp [hx]))

/-! ### Dictionary lemmas for the Collector -/

theorem dictGet_dictSet_self {α : Type} (d : List (String × α)) (k : String)
    (v : α) : dictGet (dictSet d k v) k = some v := by
  induction d with
  | nil => simp [dictSet, dictGet]
  | cons e rest ih =>
      obtain ⟨k', v'⟩ := e
      by_cases hk : k' = k
      · subst hk
        simp [dictSet, dictGet]
      · simp [dictSet, dictGet, hk, ih]

theorem dictGet_dictSet_ne {α : Type} (d : List (String × α)) (k k' : String)
    (v : α) (h : k' ≠ k) : dictGet (dictSet d k' v) k = dictGet d k := by
  induction d with
  | nil => simp [dictSet, dictGet, h]
  | cons e rest ih =>
      obtain ⟨k'', v''⟩ := e
      by_cases hk : k'' = k'
      · subst hk
        simp [dictSet, dictGet, h]
      · by_cases hk2 : k'' = k
        · subst hk2
          simp [dictSet, dictGet, hk]
        · simp [dictSet, dictGet, hk, hk2, ih]

/-! ### Non-negativity of the intact samplers (supporting §8's
"repeated sampling yields only non-negative values" for the two
distributions whose `arrivalTime` actually returns its sample) -/

theorem expovariate_nonneg {rate u : ℝ} (hr : 0 < rate) (hu : 0 ≤ u)
    (hu1 : u < 1) : 0 ≤ expovariate rate u := by
  unfold expovariate
  have h1 : Real.log (1 - u) ≤ 0 :=
    Real.log_nonpos (by linarith) (by linarith)
  have : 0 ≤ -Real.log (1 - u) := by linarith
  positivity

theorem uniformVariate_nonneg {a b u : ℝ} (ha : 0 ≤ a) (hab : a ≤ b)
    (hu : 0 ≤ u) : 0 ≤ uniformVariate a b u := by
  unfold uniformVariate
  have : 0 ≤ (b - a) * u := mul_nonneg (by linarith) hu
  linarith

/-! ## Claim theorems -/

/-- Claim C2 (counterexample): on a node with zero completed cycles, `collect`
does NOT return the sentinel `0`: `self.waitTime / self.count` raises
`ZeroDivisionError` (embedded as `none`), and the two-stage availability
statistic with all-zero stage `waitTime`s likewise raises rather than
returning `0`. -/
theorem collect_zero_count_raises_cex :
    collectValue (.leaf ⟨0, 0⟩ (fun u => u)) = none ∧
    twoStageCollectValue (.sequential ⟨0, 0⟩
      [.leaf ⟨0, 0⟩ (fun u => u), .leaf ⟨0, 0⟩ (fun u => u)] 0 0) = none := by
  constructor
  · norm_num [collectValue, ownStats]
  · norm_num [twoStageCollectValue, ownStats]

/-- Claim C2 (amended): a node with zero completed cycles makes `collect` raise
`ZeroDivisionError` (`none` in this embedding) — no sentinel value exists
in the code; the same holds for the two-stage availability ratio when
both stages' accumulated `waitTime`s are zero. -/
theorem collect_zero_count_raises :
    (∀ p : RandomProcess, (ownStats p).count = 0 → collectValue p = none) ∧
    (∀ (st : Stats) (f r : RandomProcess) (rest : List RandomProcess)
        (idx cur : ℕ),
      (ownStats f).waitTime + (ownStats r).waitTime = 0 →
        twoStageCollectValue (.sequential st (f :: r :: rest) idx cur) = none) := by
  constructor
  · intro p h
    simp [collectValue, h]
  · intro st f r rest idx cur h
    simp [twoStageCollectValue, h]

theorem collect_zero_count_raises_witness :
    collectValue (.leaf ⟨5, 0⟩ (fun u => u)) = none ∧
    twoStageCollectValue (.sequential ⟨1, 4⟩
      [.leaf ⟨0, 3⟩ (fun u => u), .leaf ⟨0, 2⟩ (fun u => u)] 1 0) = none :=
  ⟨collect_zero_count_raises.1 (.leaf ⟨5, 0⟩ (fun u => u)) rfl,
   collect_zero_count_raises.2 ⟨1, 4⟩ (.leaf ⟨0, 3⟩ (fun u => u))
     (.leaf ⟨0, 2⟩ (fun u => u)) [] 1 0 (by norm_num [ownStats])⟩

/-- Claim C3 (counterexample): `BranchingProcess.__init__` performs NO
validation — constructing the cdf from probabilities `[1/2, 1/5]`
(sum `7/10 ≠ 1`) succeeds (the constructor is total; no
`ConfigurationError` class even exists in the source, only the comment
`FIXME: Assert that the sum of probabilities is 1`), and the resulting
table's final value is `7/10`, not `1`. -/
theorem branching_init_no_validation_cex :
    buildCdf [1/2, 1/5] = [1/2, 7/10] ∧
    (buildCdf [1/2, 1/5]).getLast? = some (7/10) ∧ (7/10 : ℚ) < 1 := by
  refine ⟨?_, ?_, by norm_num⟩ <;> norm_num [buildCdf, buildCdfFrom]

/-- Claim C3 (amended): construction never raises (the constructor is embedded
as the total function `buildCdf`); whenever the user-supplied
probabilities are non-negative the precomputed cumulative table is
non-decreasing, and its final entry equals the SUM of the probabilities —
hence it equals `1` exactly when the probabilities do sum to `1`, which
the constructor does not check. -/
theorem branching_cdf_monotone (probs : List ℚ) (hnn : ∀ p ∈ probs, 0 ≤ p) :
    List.Chain' (· ≤ ·) (buildCdf probs) ∧
    (probs ≠ [] → (buildCdf probs).getLast? = some probs.sum) ∧
    (probs ≠ [] → probs.sum = 1 → (buildCdf probs).getLast? = some 1) := by
  refine ⟨buildCdfFrom_chain probs 0 hnn, fun hne => ?_, fun hne hsum => ?_⟩
  · rw [buildCdf, buildCdfFrom_getLast probs 0 hne, zero_add]
  · rw [buildCdf, buildCdfFrom_getLast probs 0 hne, zero_add, hsum]

theorem branching_cdf_monotone_witness :
    List.Chain' (· ≤ ·) (buildCdf [3/10, 7/10]) ∧
    (buildCdf [3/10, 7/10]).getLast? = some 1 := by
  have h := branching_cdf_monotone [3/10, 7/10] (by norm_num)
  exact ⟨h.1, by simpa using h.2.2 (by simp) (by norm_num)⟩

/-- Claim C4: `BranchingProcess.trigger` selects the first branch index `i`
whose cumulative value exceeds the uniform draw (`n < self.cdf[i]`, first
match wins), and delegates `trigger()` to that branch; with probabilities
`[0.3, 0.7]` (cdf `[0.3, 1]`), the draw `0.2` selects branch 0, `0.5`
selects branch 1, and a draw exactly at `0.3` selects branch 1 (branch
0's upper bound is exclusive, since the comparison is strict `<`). -/
theorem branching_selects_first_exceeding :
    (∀ (cdf : List ℚ) (u : ℚ) (i : ℕ),
      selectBranch cdf u = some i ↔
        (∃ ci, cdf[i]? = some ci ∧ u < ci) ∧
        (∀ j, j < i → ∀ cj, cdf[j]? = some cj → ¬ u < cj)) ∧
    selectBranch (buildCdf [3/10, 7/10]) (1/5) = some 0 ∧
    selectBranch (buildCdf [3/10, 7/10]) (1/2) = some 1 ∧
    selectBranch (buildCdf [3/10, 7/10]) (3/10) = some 1 ∧
    (∀ (st : Stats) (brs : List RandomProcess) (cdf : List ℚ)
        (cur : Option ℕ) (u : ℚ) (rest s' : List ℚ) (d : ℚ)
        (p' : RandomProcess) (i : ℕ),
      trigger (.branching st brs cdf cur) (u :: rest) = some (d, p', s') →
      selectBranch cdf u = some i →
      ∃ b b', brs[i]? = some b ∧ trigger b rest = some (d, b', s') ∧
        p' = .branching st (brs.set i b') cdf (some i)) := by
  refine ⟨?_, ?_, ?_, ?_, ?_⟩
  · intro cdf u i
    rw [selectBranch, List.findIdx?_eq_some_iff_getElem]
    constructor
    · rintro ⟨h, hpi, hprev⟩
      refine ⟨⟨cdf[i], List.getElem?_eq_getElem h, by simpa using hpi⟩, ?_⟩
      intro j hj cj hcj
      have hjlt : j < cdf.length := Nat.lt_trans hj h
      have hcj2 : cdf[j] = cj := by
        rw [List.getElem?_eq_getElem hjlt] at hcj
        exact Option.some.inj hcj
      have hnp := hprev j hj
      rw [← hcj2]
      simpa using hnp
    · rintro ⟨⟨ci, hci, hui⟩, hprev⟩
      have hilt : i < cdf.length := (List.getElem?_eq_some_iff.mp hci).1
      refine ⟨hilt, ?_, ?_⟩
      · have hci2 : cdf[i] = ci := by
          rw [List.getElem?_eq_getElem hilt] at hci
          exact Option.some.inj hci
        simpa [hci2] using hui
      · intro j hj
        have hjlt : j < cdf.length := Nat.lt_trans hj hilt
        have hp := hprev j hj (cdf.get ⟨j, hjlt⟩)
          (by rw [List.getElem?_eq_getElem hjlt]; rfl)
        simpa using hp
  · norm_num [selectBranch, buildCdf, buildCdfFrom, List.findIdx?_cons]
  · norm_num [selectBranch, buildCdf, buildCdfFrom, List.findIdx?_cons]
  · norm_num [selectBranch, buildCdf, buildCdfFrom, List.findIdx?_cons]
  · intro st brs cdf cur u rest s' d p' i ht hsel
    obtain ⟨u2, rest2, i2, b, b2, hs, hi2, hb, htb, hp⟩ := trigger_branching_inv ht
    injection hs with hu hrest
    subst hu hrest
    rw [hi2] at hsel
    obtain rfl := Option.some.inj hsel
    exact ⟨b, b2, hb, htb, hp⟩

theorem branching_selects_first_exceeding_witness :
    ∃ b b', ([RandomProcess.leaf ⟨0, 0⟩ (fun u => u),
        RandomProcess.leaf ⟨0, 0⟩ (fun u => u)] : List RandomProcess)[1]? = some b ∧
      trigger b [4] = some (4, b', []) ∧
      RandomProcess.branching ⟨0, 0⟩
          ((([RandomProcess.leaf ⟨0, 0⟩ (fun u => u),
              RandomProcess.leaf ⟨0, 0⟩ (fun u => u)] : List RandomProcess)).set 1
            (RandomProcess.leaf ⟨0, 0⟩ (fun u => u)))
          (buildCdf [3/10, 7/10]) (some 1) =
        .branching ⟨0, 0⟩ (([RandomProcess.leaf ⟨0, 0⟩ (fun u => u),
            RandomProcess.leaf ⟨0, 0⟩ (fun u => u)] : List RandomProcess).set 1 b')
          (buildCdf [3/10, 7/10]) (some 1) := by
  obtain ⟨b, b', h1, h2, h3⟩ :=
    branching_selects_first_exceeding.2.2.2.2 ⟨0, 0⟩
      [RandomProcess.leaf ⟨0, 0⟩ (fun u => u),
       RandomProcess.leaf ⟨0, 0⟩ (fun u => u)]
      (buildCdf [3/10, 7/10]) none (1/2) [4] [] 4
      (.branching ⟨0, 0⟩
        (([RandomProcess.leaf ⟨0, 0⟩ (fun u => u),
           RandomProcess.leaf ⟨0, 0⟩ (fun u => u)] : List RandomProcess).set 1
          (RandomProcess.leaf ⟨0, 0⟩ (fun u => u)))
        (buildCdf [3/10, 7/10]) (some 1)) 1
      (by norm_num [trigger_branching, trigger_leaf, selectBranch, buildCdf,
        buildCdfFrom, List.findIdx?_cons])
      (by norm_num [selectBranch, buildCdf, buildCdfFrom, List.findIdx?_cons])
  exact ⟨b, b', h1, h2, by rw [h3]⟩

/-- Claim C7 (counterexample): constructing an exponential failure process with
the non-positive rate `-1` succeeds and stores the rate unchanged — no
`DegenerateInputError` is raised (no such class exists in the source, and
no constructor validates its parameters). -/
theorem exponential_init_accepts_nonpositive_cex :
    (ExponentialFailure.init ⟨-1, 0, 0, 0, 0⟩).rate = -1 := rfl

/-- Claim C7 (amended): the distribution constructors perform no validation at
all: they are total functions that store the parameter fields verbatim,
for every value including non-positive ones; consequently a negative rate
flows unchecked into sampling, where it yields a NEGATIVE arrival time
(e.g. at the uniform draw `1/2`). -/
theorem distribution_init_no_validation (params : SimParams)
    (hneg : params.failure_rate < 0) :
    (ExponentialFailure.init params).rate = params.failure_rate ∧
    (UniformFailure.init params).a = params.failure_a ∧
    (UniformFailure.init params).b = params.failure_b ∧
    (WeibullFailure.init params).alpha = params.failure_alpha ∧
    (WeibullFailure.init params).beta = params.failure_beta ∧
    expovariate (ExponentialFailure.init params).rate (1/2) < 0 := by
  refine ⟨rfl, rfl, rfl, rfl, rfl, ?_⟩
  show expovariate params.failure_rate (1/2) < 0
  unfold expovariate
  have h1 : Real.log (1 - 1/2 : ℝ) = -Real.log 2 := by
    norm_num
    rw [Real.log_div one_ne_zero two_ne_zero, Real.log_one]
    ring
  rw [h1, neg_neg]
  exact div_neg_of_pos_of_neg (Real.log_pos (by norm_num)) hneg

theorem distribution_init_no_validation_witness :
    (ExponentialFailure.init ⟨-1, 0, 0, 2, 3⟩).rate = -1 ∧
    expovariate (ExponentialFailure.init ⟨-1, 0, 0, 2, 3⟩).rate (1/2) < 0 :=
  ⟨(distribution_init_no_validation ⟨-1, 0, 0, 2, 3⟩ (by norm_num)).1,
   (distribution_init_no_validation ⟨-1, 0, 0, 2, 3⟩ (by norm_num)).2.2.2.2.2⟩

/-- Claim C8 (code bug): `WeibullProcess.arrivalTime` computes
`random.weibullvariate(self.alpha, self.beta)` but has no `return`
statement, so every call returns Python `None` instead of a non-negative
real sample — here evaluated at alpha = 1, beta = 1 and uniform draw 1/2.
(The exponential and uniform samplers do return non-negative reals; see
`expovariate_nonneg` and `uniformVariate_nonneg`.) -/
theorem weibull_arrivalTime_returns_none :
    (WeibullFailure.init ⟨0, 0, 0, 1, 1⟩).arrivalTime (1/2) = none := rfl

/-- Claim C10 (counterexample): a freshly constructed `Collector` with an EMPTY
stat table makes `doneRow` succeed as a no-op before any `startRow` — the
`for` loop over `statTable.items()` never touches the missing
`tempList`, so the claim that `doneRow` always fails before the first
`startRow` is wrong for this input. -/
theorem doneRow_empty_table_succeeds_cex :
    (Collector.init []).doneRow "r" = some (Collector.init []) ∧
    (Collector.init []).tempList = none := ⟨rfl, rfl⟩

/-- Claim C10 (amended): on a freshly constructed `Collector`, `collect` always
fails (`AttributeError`: `self.tempList` does not exist until `startRow`
creates it), and `doneRow` fails whenever the stat table is non-empty;
with an empty stat table `doneRow` silently succeeds without touching the
buffer.  The open/accumulate/close protocol is an unenforced
precondition. -/
theorem collect_doneRow_before_startRow :
    (∀ (table : List (String × (List ℚ → ℚ))) (x : ℚ),
      (Collector.init table).collect x = none) ∧
    (∀ (table : List (String × (List ℚ → ℚ))) (key : String),
      table ≠ [] → (Collector.init table).doneRow key = none) ∧
    (∀ key : String,
      (Collector.init []).doneRow key = some (Collector.init [])) := by
  refine ⟨fun table x => rfl, ?_, fun key => rfl⟩
  intro table key htable
  cases table with
  | nil => exact absurd rfl htable
  | cons e rest => rfl

theorem collect_doneRow_before_startRow_witness :
    (Collector.init [("average", fun l : List ℚ => l.sum)]).collect 3 = none ∧
    (Collector.init [("average", fun l : List ℚ => l.sum)]).doneRow "r" = none :=
  ⟨collect_doneRow_before_startRow.1 [("average", fun l : List ℚ => l.sum)] 3,
   collect_doneRow_before_startRow.2.1 [("average", fun l : List ℚ => l.sum)] "r"
     (by simp)⟩

/-- Full specification of the `doneRow` loop: it stores `f buf` under
`(key, statName)` for every table entry and leaves `tempList` and
`statTable` untouched. -/
theorem doneRowAux_spec (table : List (String × (List ℚ → ℚ))) :
    ∀ (c : Collector) (key : String) (buf : List ℚ) (row : List (String × ℚ)),
    c.tempList = some buf → dictGet c.stats key = some row →
    ∃ c' row', Collector.doneRowAux key table c = some c' ∧
      c'.tempList = some buf ∧ c'.statTable = c.statTable ∧
      dictGet c'.stats key = some row' ∧
      (∀ sn, sn ∉ table.map Prod.fst → dictGet row' sn = dictGet row sn) ∧
      ((table.map Prod.fst).Nodup →
        ∀ sn f, (sn, f) ∈ table → dictGet row' sn = some (f buf)) := by
  induction table with
  | nil =>
      intro c key buf row hbuf hrow
      exact ⟨c, row, rfl, hbuf, rfl, hrow, fun sn _ => rfl, fun _ sn f h => by simp at h⟩
  | cons e rest ih =>
      intro c key buf row hbuf hrow
      obtain ⟨sn₀, f₀⟩ := e
      have hstep : Collector.doneRowAux key ((sn₀, f₀) :: rest) c =
          Collector.doneRowAux key rest
            { c with stats := dictSet c.stats key (dictSet row sn₀ (f₀ buf)) } := by
        rw [Collector.doneRowAux, hbuf, hrow]
      set c₁ : Collector :=
        { c with stats := dictSet c.stats key (dictSet row sn₀ (f₀ buf)) } with hc₁
      have hbuf₁ : c₁.tempList = some buf := hbuf
      have hrow₁ : dictGet c₁.stats key = some (dictSet row sn₀ (f₀ buf)) :=
        dictGet_dictSet_self c.stats key (dictSet row sn₀ (f₀ buf))
      obtain ⟨c', row', haux, htemp, htable, hget, hpres, hstore⟩ :=
        ih c₁ key buf (dictSet row sn₀ (f₀ buf)) hbuf₁ hrow₁
      refine ⟨c', row', by rw [hstep, haux], htemp, htable, hget, ?_, ?_⟩
      · intro sn hsn
        simp only [List.map_cons, List.mem_cons, not_or] at hsn
        rw [hpres sn hsn.2, dictGet_dictSet_ne row sn sn₀ (f₀ buf) (Ne.symm hsn.1)]
      · intro hnodup sn f hmem
        simp only [List.map_cons, List.nodup_cons] at hnodup
        rcases List.mem_cons.mp hmem with heq | hmem'
        · injection heq with h1 h2
          subst h1 h2
          rw [hpres _ hnodup.1, dictGet_dictSet_self]
        · exact hstore hnodup.2 sn f hmem'

/-- Claim C9 (counterexample): after `startRow "r1"; collect 1; doneRow "r1"`
the summary `("sum", 1)` is stored, but the buffer still holds `[1]` —
`doneRow` never clears it.  A further `collect 2; doneRow "r1"` (no
intervening `startRow`) therefore reduces over `[1, 2]` and stores `3`:
the first row's sample has leaked into the second reduction. -/
theorem doneRow_buffer_not_cleared_cex :
    (((Collector.init [("sum", fun l : List ℚ => l.sum)]).startRow
          "r1").collect 1).bind (fun c => c.doneRow "r1") =
      some ⟨[("r1", [("sum", 1)])], [("sum", fun l : List ℚ => l.sum)],
        some [1]⟩ ∧
    ((⟨[("r1", [("sum", 1)])], [("sum", fun l : List ℚ => l.sum)],
        some [1]⟩ : Collector).collect 2).bind (fun c => c.doneRow "r1") =
      some ⟨[("r1", [("sum", 3)])], [("sum", fun l : List ℚ => l.sum)],
        some [1, 2]⟩ := by
  constructor
  · norm_num [Collector.init, Collector.startRow, Collector.collect,
      Collector.doneRow, Collector.doneRowAux, dictSet, dictGet]
  · norm_num [Collector.collect, Collector.doneRow, Collector.doneRowAux,
      dictSet, dictGet]

/-- Claim C9 (amended): for every collector whose buffer exists and whose `key`
row is open, `doneRow key` stores `f buf` under `(key, statName)` for
every `(statName, f)` in the stat table, but the raw accumulation buffer
is NOT cleared: `tempList` still holds exactly the accumulated samples
afterwards.  Row isolation is obtained only because `startRow` replaces
the buffer. -/
theorem doneRow_stores_and_keeps_buffer (c : Collector) (key : String)
    (buf : List ℚ) (row : List (String × ℚ))
    (hbuf : c.tempList = some buf) (hrow : dictGet c.stats key = some row)
    (hnodup : (c.statTable.map Prod.fst).Nodup) :
    ∃ c' row', c.doneRow key = some c' ∧
      c'.tempList = some buf ∧
      dictGet c'.stats key = some row' ∧
      (∀ sn f, (sn, f) ∈ c.statTable → dictGet row' sn = some (f buf)) := by
  obtain ⟨c', row', haux, htemp, htable, hget, hpres, hstore⟩ :=
    doneRowAux_spec c.statTable c key buf row hbuf hrow
  exact ⟨c', row', haux, htemp, hget, hstore hnodup⟩

theorem doneRow_stores_and_keeps_buffer_witness :
    ∃ c' row',
      (⟨[("r1", [])], [("sum", fun l : List ℚ => l.sum)], some [1, 2]⟩ :
        Collector).doneRow "r1" = some c' ∧
      c'.tempList = some [1, 2] ∧
      dictGet c'.stats "r1" = some row' ∧
      (∀ sn f,
        (sn, f) ∈ ([("sum", fun l : List ℚ => l.sum)] :
          List (String × (List ℚ → ℚ))) → dictGet row' sn = some (f [1, 2])) :=
  doneRow_stores_and_keeps_buffer
    ⟨[("r1", [])], [("sum", fun l : List ℚ => l.sum)], some [1, 2]⟩
    "r1" [1, 2] [] rfl (by norm_num [dictGet]) (by simp)

theorem runRound_inv {p : RandomProcess} {s : List ℚ} {q : RandomProcess}
    {s' : List ℚ} (h : runRound p s = some (q, s')) :
    ∃ d p', trigger p s = some (d, p', s') ∧ q = updateStatistics p' d 1 := by
  unfold runRound at h
  cases ht : trigger p s with
  | none => simp [ht] at h
  | some y =>
      obtain ⟨d, p2, s2⟩ := y
      simp only [ht, Option.some.injEq, Prod.mk.injEq] at h
      obtain ⟨h1, h2⟩ := h
      subst h2
      exact ⟨d, p2, rfl, h1.symm⟩

/-- Claim C1 (counterexample): one completed round of a `ParallelProcess` of
two leaves with race delays 5 and 2.  The winner is the second child
(delay 2), yet afterwards BOTH children still carry `waitTime = 0`,
`count = 0`, while the composite's OWN counters advanced to
`waitTime = 2`, `count = 1`: `ParallelProcess` does not override
`updateStatistics`, so nothing is delegated to the winning child and the
composite's own statistics do advance. -/
theorem parallel_updateStatistics_not_delegating_cex :
    runRound (.parallel ⟨0, 0⟩
        [.leaf ⟨0, 0⟩ (fun u => u), .leaf ⟨0, 0⟩ (fun u => u)]) [5, 2] =
      some (.parallel ⟨2, 1⟩
        [.leaf ⟨0, 0⟩ (fun u => u), .leaf ⟨0, 0⟩ (fun u => u)], []) := by
  simp [runRound, trigger_parallel, triggerAll_cons, triggerAll_nil,
    trigger_leaf, updateStatistics_parallel]
  norm_num [List.min?]

/-- Claim C1 (amended): after every completed trigger round of a
`ParallelProcess`, the composite's OWN `waitTime` advances by the winning
(earliest, i.e. minimum) delay of the race and its OWN `count` by one,
while the statistics of every node inside the children — the winner
included — are unchanged; the non-winning samples are discarded, but so
is the attribution of the winning one, since the inherited base
`updateStatistics` never delegates. -/
theorem parallel_round_adds_to_own_counters (st : Stats)
    (ps : List RandomProcess) (s : List ℚ) (q : RandomProcess) (s' : List ℚ)
    (h : runRound (.parallel st ps) s = some (q, s')) :
    ∃ ds ps' dmin, triggerAll ps s = some (ds, ps', s') ∧
      ds.min? = some dmin ∧
      q = .parallel ⟨st.waitTime + dmin, st.count + 1⟩ ps' ∧
      statsListAll ps' = statsListAll ps := by
  obtain ⟨d, p2, ht, hq⟩ := runRound_inv h
  obtain ⟨ds, ps2, hall, hmin, hp2⟩ := trigger_parallel_inv ht
  subst hp2
  subst hq
  exact ⟨ds, ps2, d, hall, hmin, by rw [updateStatistics_parallel],
    triggerAll_statsListAll hall⟩

theorem parallel_round_adds_to_own_counters_witness :
    ∃ ds ps' dmin,
      triggerAll [RandomProcess.leaf ⟨0, 0⟩ (fun u => u),
          RandomProcess.leaf ⟨0, 0⟩ (fun u => u)] [5, 2] =
        some (ds, ps', []) ∧
      ds.min? = some dmin ∧
      RandomProcess.parallel (⟨2, 1⟩ : Stats)
          [RandomProcess.leaf ⟨0, 0⟩ (fun u => u),
           RandomProcess.leaf ⟨0, 0⟩ (fun u => u)] =
        .parallel ⟨(0 : ℚ) + dmin, 0 + 1⟩ ps' ∧
      statsListAll ps' =
        statsListAll [RandomProcess.leaf ⟨0, 0⟩ (fun u => u),
          RandomProcess.leaf ⟨0, 0⟩ (fun u => u)] :=
  parallel_round_adds_to_own_counters ⟨0, 0⟩
    [RandomProcess.leaf ⟨0, 0⟩ (fun u => u),
     RandomProcess.leaf ⟨0, 0⟩ (fun u => u)] [5, 2]
    (.parallel ⟨2, 1⟩ [RandomProcess.leaf ⟨0, 0⟩ (fun u => u),
      RandomProcess.leaf ⟨0, 0⟩ (fun u => u)]) []
    (by simp [runRound, trigger_parallel, triggerAll_cons, triggerAll_nil,
        trigger_leaf, updateStatistics_parallel]
        norm_num [List.min?])

/-- Claim C5: `SequentialProcess.updateStatistics(dt, n)` delegates to
`self.currentProcess`, the child selected by the most recent `trigger()`
(the one that just fired, at the pre-advance index): the composite's own
`waitTime`/`count` are untouched, every other child is untouched, and the
selected child's subtree absorbs exactly `dt` and `n`. -/
theorem sequential_updateStatistics_delegates (st : Stats)
    (sq : List RandomProcess) (idx cur : ℕ) (s : List ℚ) (d : ℚ)
    (p' : RandomProcess) (s' : List ℚ)
    (h : trigger (.sequential st sq idx cur) s = some (d, p', s'))
    (dt : ℚ) (n : ℕ) :
    ∃ sq' child',
      p' = .sequential st sq' ((idx + 1) % sq.length) idx ∧
      sq'[idx]? = some child' ∧
      updateStatistics p' dt n =
        .sequential st (sq'.set idx (updateStatistics child' dt n))
          ((idx + 1) % sq.length) idx ∧
      ownStats (updateStatistics p' dt n) = st ∧
      (∀ j, j ≠ idx →
        (sq'.set idx (updateStatistics child' dt n))[j]? = sq'[j]?) ∧
      totalCount (updateStatistics child' dt n) = totalCount child' + n ∧
      totalWait (updateStatistics child' dt n) = totalWait child' + dt := by
  obtain ⟨child, child2, hc, htc, hp⟩ := trigger_sequential_inv h
  have hlen : idx < sq.length := (List.getElem?_eq_some_iff.mp hc).1
  have hset : (sq.set idx child2)[idx]? = some child2 := by
    rw [List.getElem?_set_self]
    simpa using hlen
  have hokc : updOk child2 := trigger_updOk htc
  refine ⟨sq.set idx child2, child2, hp, hset, ?_, ?_,
    fun j hj => List.getElem?_set_ne (Ne.symm hj),
    updateStatistics_totalCount hokc dt n,
    updateStatistics_totalWait hokc dt n⟩
  · rw [hp, updateStatistics_sequential]
    simp only [hset]
  · rw [hp, updateStatistics_sequential]
    simp only [hset]
    rfl

theorem sequential_updateStatistics_delegates_witness :
    ∃ sq' child',
      RandomProcess.sequential (⟨0, 0⟩ : Stats)
          [RandomProcess.leaf ⟨0, 0⟩ (fun u => u),
           RandomProcess.leaf ⟨0, 0⟩ (fun u => u)] 1 0 =
        .sequential ⟨0, 0⟩ sq'
          ((0 + 1) % ([RandomProcess.leaf ⟨0, 0⟩ (fun u => u),
            RandomProcess.leaf ⟨0, 0⟩ (fun u => u)] : List RandomProcess).length) 0 ∧
      sq'[0]? = some child' ∧
      updateStatistics (RandomProcess.sequential (⟨0, 0⟩ : Stats)
          [RandomProcess.leaf ⟨0, 0⟩ (fun u => u),
           RandomProcess.leaf ⟨0, 0⟩ (fun u => u)] 1 0) 7 1 =
        .sequential ⟨0, 0⟩ (sq'.set 0 (updateStatistics child' 7 1))
          ((0 + 1) % ([RandomProcess.leaf ⟨0, 0⟩ (fun u => u),
            RandomProcess.leaf ⟨0, 0⟩ (fun u => u)] : List RandomProcess).length) 0 ∧
      ownStats (updateStatistics (RandomProcess.sequential (⟨0, 0⟩ : Stats)
          [RandomProcess.leaf ⟨0, 0⟩ (fun u => u),
           RandomProcess.leaf ⟨0, 0⟩ (fun u => u)] 1 0) 7 1) = ⟨0, 0⟩ ∧
      (∀ j, j ≠ 0 →
        (sq'.set 0 (updateStatistics child' 7 1))[j]? = sq'[j]?) ∧
      totalCount (updateStatistics child' 7 1) = totalCount child' + 1 ∧
      totalWait (updateStatistics child' 7 1) = totalWait child' + 7 :=
  sequential_updateStatistics_delegates ⟨0, 0⟩
    [RandomProcess.leaf ⟨0, 0⟩ (fun u => u),
     RandomProcess.leaf ⟨0, 0⟩ (fun u => u)] 0 0 [7] 7
    (.sequential ⟨0, 0⟩ [RandomProcess.leaf ⟨0, 0⟩ (fun u => u),
      RandomProcess.leaf ⟨0, 0⟩ (fun u => u)] 1 0) []
    (by simp [trigger_sequential, trigger_leaf]) 7 1

/-- Round-robin invariant of the `run` loop on a `SequentialProcess`:
after `m` completed cycles from index `idx`, the stored index is
`(idx + m) mod k`, the composite's own statistics are untouched, the
total completed-cycle count attributed among the children grew by exactly
`m`, and `currentProcess` records the child of the last completed cycle,
`(idx + m - 1) mod k`. -/
theorem seq_runRounds_aux (m : ℕ) :
    ∀ (st : Stats) (sq : List RandomProcess) (idx cur : ℕ) (s : List ℚ)
      (p' : RandomProcess) (s' : List ℚ),
      idx < sq.length →
      runRounds m (.sequential st sq idx cur) s = some (p', s') →
      ∃ sq' cur', p' = .sequential st sq' ((idx + m) % sq.length) cur' ∧
        sq'.length = sq.length ∧
        totalCountAll sq' = totalCountAll sq + m ∧
        (m = 0 → cur' = cur) ∧
        (0 < m → cur' = (idx + m - 1) % sq.length) := by
  induction m with
  | zero =>
      intro st sq idx cur s p' s' hidx h
      rw [runRounds] at h
      simp only [Option.some.injEq, Prod.mk.injEq] at h
      obtain ⟨h1, h2⟩ := h
      have hmod : (idx + 0) % sq.length = idx := by
        rw [Nat.add_zero]
        exact Nat.mod_eq_of_lt hidx
      refine ⟨sq, cur, ?_, rfl, by omega, fun _ => rfl,
        fun hc => absurd hc (Nat.lt_irrefl 0)⟩
      rw [← h1, hmod]
  | succ m ih =>
      intro st sq idx cur s p' s' hidx h
      rw [runRounds] at h
      cases hr : runRound (.sequential st sq idx cur) s with
      | none => simp [hr] at h
      | some y =>
          obtain ⟨p1, s1⟩ := y
          simp only [hr] at h
          obtain ⟨d, pt, ht, hq⟩ := runRound_inv hr
          obtain ⟨child, child2, hc, htc, hpt⟩ := trigger_sequential_inv ht
          subst hpt
          subst hq
          have hlen : idx < sq.length := (List.getElem?_eq_some_iff.mp hc).1
          have hset : (sq.set idx child2)[idx]? = some child2 := by
            rw [List.getElem?_set_self]
            simpa using hlen
          rw [updateStatistics_sequential] at h
          simp only [hset] at h
          set sq1 := (sq.set idx child2).set idx (updateStatistics child2 d 1)
            with hsq1
          have hk : 0 < sq.length := Nat.lt_of_le_of_lt (Nat.zero_le idx) hidx
          have hlen1 : sq1.length = sq.length := by simp [hsq1]
          have hidx1 : (idx + 1) % sq.length < sq1.length := by
            rw [hlen1]
            exact Nat.mod_lt _ hk
          obtain ⟨sq', cur', hp, hlen', hcount, h0, hpos⟩ :=
            ih st sq1 ((idx + 1) % sq.length) idx s1 p' s' hidx1 h
          have hokc : updOk child2 := trigger_updOk htc
          have hc2 : totalCount (updateStatistics child2 d 1) =
              totalCount child2 + 1 := updateStatistics_totalCount hokc d 1
          have hstats : statsList child2 = statsList child :=
            trigger_statsList htc
          have hpres : statsListAll (sq.set idx child2) = statsListAll sq :=
            statsListAll_set sq idx child child2 hc hstats
          have hidxlt : idx < (sq.set idx child2).length := by
            rwa [List.length_set]
          have hset2 := totalCountAll_set (sq.set idx child2) idx child2
            hidxlt (updateStatistics child2 d 1) hset
          have hAll : totalCountAll (sq.set idx child2) = totalCountAll sq := by
            unfold totalCountAll
            rw [hpres]
          have hcount1 : totalCountAll sq1 = totalCountAll sq + 1 := by
            rw [hsq1]
            omega
          have hindex : ((idx + 1) % sq.length + m) % sq1.length =
              (idx + (m + 1)) % sq.length := by
            rw [hlen1, Nat.mod_add_mod]
            congr 1
            omega
          refine ⟨sq', cur', by rw [hp, hindex], by rw [hlen', hlen1],
            by omega, fun hc0 => absurd hc0 m.succ_ne_zero, ?_⟩
          intro _
          rcases Nat.eq_zero_or_pos m with hm | hm
          · subst hm
            rw [h0 rfl]
            have : idx + (0 + 1) - 1 = idx := by omega
            rw [this, Nat.mod_eq_of_lt hidx]
          · rw [hpos hm, hlen1]
            have hm1 : (idx + 1) % sq.length + m - 1 =
                (idx + 1) % sq.length + (m - 1) := by omega
            rw [hm1, Nat.mod_add_mod]
            congr 1
            omega

/-- Claim C6: a `SequentialProcess` with a non-empty child list of length `k`,
driven from its freshly constructed state (`currentIndex = 0`), is
round-robin: after `m` completed cycles the stored index is `m mod k`
(so the `i`-th call to `trigger`, 0-indexed, selected `children[i mod k]`
and advanced the index to `(i+1) mod k`), `currentProcess` records child
`(m-1) mod k`, the composite's own statistics are untouched, and the `m`
completed cycles are distributed among the children: the total
completed-cycle count attributed within the children grew by exactly `m`
(for leaf children this total is just the sum of their `count`
attributes). -/
theorem sequential_round_robin_counts (st : Stats)
    (sq : List RandomProcess) (cur0 : ℕ) (s : List ℚ) (m : ℕ)
    (p' : RandomProcess) (s' : List ℚ) (hne : sq ≠ [])
    (h : runRounds m (.sequential st sq 0 cur0) s = some (p', s')) :
    ∃ sq' cur', p' = .sequential st sq' (m % sq.length) cur' ∧
      ownStats p' = st ∧
      sq'.length = sq.length ∧
      totalCountAll sq' = totalCountAll sq + m ∧
      (0 < m → cur' = (m - 1) % sq.length) := by
  have hidx : 0 < sq.length := List.length_pos.mpr hne
  obtain ⟨sq', cur', hp, hlen, hcount, h0, hpos⟩ :=
    seq_runRounds_aux m st sq 0 cur0 s p' s' hidx h
  rw [Nat.zero_add] at hp
  refine ⟨sq', cur', hp, by rw [hp]; rfl, hlen, hcount, fun hm => ?_⟩
  rw [hpos hm, Nat.zero_add]

theorem sequential_round_robin_counts_witness :
    ∃ sq' cur',
      RandomProcess.sequential (⟨0, 0⟩ : Stats)
          [RandomProcess.leaf ⟨12, 2⟩ (fun u => u),
           RandomProcess.leaf ⟨2, 1⟩ (fun u => u)] 1 0 =
        .sequential ⟨0, 0⟩ sq'
          (3 % ([RandomProcess.leaf ⟨0, 0⟩ (fun u => u),
            RandomProcess.leaf ⟨0, 0⟩ (fun u => u)] : List RandomProcess).length)
          cur' ∧
      ownStats (RandomProcess.sequential (⟨0, 0⟩ : Stats)
          [RandomProcess.leaf ⟨12, 2⟩ (fun u => u),
           RandomProcess.leaf ⟨2, 1⟩ (fun u => u)] 1 0) = ⟨0, 0⟩ ∧
      sq'.length = ([RandomProcess.leaf ⟨0, 0⟩ (fun u => u),
        RandomProcess.leaf ⟨0, 0⟩ (fun u => u)] : List RandomProcess).length ∧
      totalCountAll sq' =
        totalCountAll [RandomProcess.leaf ⟨0, 0⟩ (fun u => u),
          RandomProcess.leaf ⟨0, 0⟩ (fun u => u)] + 3 ∧
      (0 < 3 → cur' =
        (3 - 1) % ([RandomProcess.leaf ⟨0, 0⟩ (fun u => u),
          RandomProcess.leaf ⟨0, 0⟩ (fun u => u)] : List RandomProcess).length) :=
  sequential_round_robin_counts ⟨0, 0⟩
    [RandomProcess.leaf ⟨0, 0⟩ (fun u => u),
     RandomProcess.leaf ⟨0, 0⟩ (fun u => u)] 0 [5, 2, 7] 3
    (.sequential ⟨0, 0⟩ [RandomProcess.leaf ⟨12, 2⟩ (fun u => u),
      RandomProcess.leaf ⟨2, 1⟩ (fun u => u)] 1 0) []
    (by simp)
    (by norm_num [runRounds, runRound, trigger_sequential, trigger_leaf,
      updateStatistics_sequential, updateStatistics_leaf])

end RepairSim
